import Mathlib

/-!
Shallow embedding of `src/Pydigger_current.py` (PyDigger crawler).

The remote network is modelled as an abstract environment
`fetch : String → Option String` mapping a URL to the fetched page text
(`none` models a non-success HTTP status).  The history log file is
modelled as a plain string (its whole content); appending to the file is
string concatenation.  Python strings are Lean `String`s; the regular
expressions used by the script are literal-prefix-plus-character-class
scans and are embedded as explicit scanning functions over `List Char`.
-/

/-- The closing-brace character (codepoint 125), used by the
`project_urls[^\x7d]*` scan. -/
def rbrace : Char := Char.ofNat 125

/-- Match a literal character sequence at the head of the input; on success
return the remaining input.  This embeds matching the literal part of one
of the script's regular expressions at a fixed position. -/
def matchLit : List Char → List Char → Option (List Char)
  | [], s => some s
  | _ :: _, [] => none
  | a :: as, b :: bs => if a = b then matchLit as bs else none

/-- Character class `[\w-]` of the listing-page row pattern
`<td><a href="/pypi/([\w-]+)`: word characters (letters, digits,
underscore) and hyphen. -/
def wordClass (c : Char) : Bool :=
  (('a' ≤ c) && (c ≤ 'z')) || (('A' ≤ c) && (c ≤ 'Z')) ||
  (('0' ≤ c) && (c ≤ '9')) || c = '_' || c = '-'

/-- Character class `[-_a-zA-Z/.d]` of the hosting-URL patterns.  Note it
is exactly what the source writes: hyphen, underscore, letters, slash,
dot, and the letter `d` (which is already a letter) — no digits. -/
def urlClass (c : Char) : Bool :=
  c = '-' || c = '_' || (('a' ≤ c) && (c ≤ 'z')) ||
  (('A' ≤ c) && (c ≤ 'Z')) || c = '/' || c = '.' || c = 'd'

/-- Fuel-indexed scanner: recursion is structural on the fuel, which
dominates the number of remaining scan positions, so the function
evaluates by kernel reduction.  `scanMatches` instantiates the fuel with
the input length, always sufficient by `scanAux_fuel`. -/
def scanAux (lit pre : List Char) (cls : Char → Bool) :
    Nat → List Char → List (List Char)
  | _, [] => []
  | 0, _ :: _ => []
  | fuel + 1, c :: cs =>
    match matchLit lit (c :: cs) with
    | some rest =>
      if rest.takeWhile cls = [] then
        scanAux lit pre cls fuel cs
      else
        (pre ++ rest.takeWhile cls)
          :: scanAux lit pre cls fuel (rest.dropWhile cls)
    | none => scanAux lit pre cls fuel cs

/-- Embeds `re.findall(lit ++ (cls+), text)` where the single capture
group is `pre ++ (cls+)` (the group's own literal prefix `pre` plus a
maximal non-empty run of class characters).  The scan is left-to-right
and non-overlapping, exactly as Python's `re.findall`: at each position
try the literal, then require at least one class character; on success
emit the group and resume after the match, otherwise advance one
character. -/
def scanMatches (lit pre : List Char) (cls : Char → Bool)
    (t : List Char) : List (List Char) :=
  scanAux lit pre cls t.length t

/-- The literal `project_urls` searched for by `get_json_pattern`. -/
def pUrls : List Char := ("project_urls").data

/-- Fuel-indexed block scanner, structural on the fuel exactly like
`scanAux`. -/
def findBlocksAux : Nat → List Char → List (List Char)
  | _, [] => []
  | 0, _ :: _ => []
  | fuel + 1, c :: cs =>
    match matchLit pUrls (c :: cs) with
    | some rest =>
      (pUrls ++ rest.takeWhile (fun ch => ch ≠ rbrace))
        :: findBlocksAux fuel (rest.dropWhile (fun ch => ch ≠ rbrace))
    | none => findBlocksAux fuel cs

/-- Embeds `re.compile(r'project_urls[^\x7d]*').finditer(source)`, with
each match rendered as the matched text (the script slices the source at
the match's span, which yields exactly the matched text).  All
non-overlapping matches are produced, left to right: the literal
`project_urls` followed by the maximal run of non-closing-brace
characters; the scan resumes after each match. -/
def findBlocks (t : List Char) : List (List Char) :=
  findBlocksAux t.length t

/-- The literal part of the Homepage pattern
`Homepage&#34;: &#34;(https://git[-_a-zA-Z/.d]+)` up to and including the
group's literal prefix. -/
def homeLit : List Char := ("Homepage&#34;: &#34;https://git").data

/-- The literal part of the Repository pattern
`Repository&#34;: &#34;(https://git[-_a-zA-Z/.d]+)` up to and including
the group's literal prefix. -/
def repLit : List Char := ("Repository&#34;: &#34;https://git").data

/-- The group's literal prefix `https://git`, common to both hosting-URL
patterns. -/
def gitPre : List Char := ("https://git").data

/-- The literal part of the listing-page row pattern
`<td><a href="/pypi/([\w-]+)`; here the capture group has no literal
prefix of its own. -/
def pdigLit : List Char := ("<td><a href=\"/pypi/").data

/-- One iteration of the `for match in matches` loop body of
`get_link_from_json`: run both key patterns over the block text and
extend the accumulator exactly as the source does (`+=` of the whole
findall list, the Repository list only when non-empty and different, as
lists, from the Homepage list). -/
def blockStep (git_list : List (List Char)) (git_chunk : List Char) :
    List (List Char) :=
  let home_pattern := scanMatches homeLit gitPre urlClass git_chunk
  let rep_pattern := scanMatches repLit gitPre urlClass git_chunk
  let git_list2 := if home_pattern = [] then git_list else git_list ++ home_pattern
  if rep_pattern ≠ [] ∧ rep_pattern ≠ home_pattern then git_list2 ++ rep_pattern
  else git_list2

/-- Body of `get_link_from_json` after a successful fetch: iterate
`blockStep` over every `finditer` match of the `project_urls` pattern. -/
def extract_links (source_jason : String) : List String :=
  ((findBlocks source_jason.data).foldl blockStep []).map String.mk

/-- Embeds `get_link_from_json`: a failed fetch logs and returns `[]`;
otherwise the hosting links are extracted from the page text. -/
def get_link_from_json (fetch : String → Option String) (json_site : String) :
    List String :=
  match fetch json_site with
  | none => []
  | some source_jason => extract_links source_jason

/-- Embeds `get_link_from_pdig`: on a failed fetch the Python function
executes a bare `return`, i.e. yields `None` — modelled as `none`.  On
success every `<td><a href="/pypi/([\w-]+)` match is mapped to its
metadata-page URL. -/
def get_link_from_pdig (fetch : String → Option String) (page : String) :
    Option (List String) :=
  match fetch page with
  | none => none
  | some text =>
    some ((scanMatches pdigLit [] wordClass text.data).map
      (fun link => ("https://pydigger.com/pypi/") ++ String.mk link))

/-- Occurrence of a literal character sequence at some position of the
input: this is `re.search`/non-empty `re.findall` of an escaped literal
such as `setup\.py`. -/
def hasLit (lit : List Char) : List Char → Bool
  | [] => (matchLit lit []).isSome
  | c :: cs => (matchLit lit (c :: cs)).isSome || hasLit lit cs

/-- Marker-presence test of the probe stages: `re.findall` of the escaped
marker literal is non-empty iff the literal occurs in the page text. -/
def containsMarker (marker text : String) : Bool :=
  hasLit marker.data text.data

/-- Embeds `check_setup_py_in_git`: keep, in order, the links whose page
fetch succeeds and contains `setup.py`; a failed fetch only logs and the
link is dropped. -/
def check_setup_py_in_git (fetch : String → Option String) :
    List String → List String
  | [] => []
  | link :: rest =>
    match fetch link with
    | none => check_setup_py_in_git fetch rest
    | some web_text =>
      if containsMarker ("setup.py") web_text then
        link :: check_setup_py_in_git fetch rest
      else
        check_setup_py_in_git fetch rest

/-- Embeds `filter_toml_in_git`: keep, in order, the links whose page
fetch succeeds and does not contain `pyproject.toml`; a failed fetch only
logs and the link is dropped. -/
def filter_toml_in_git (fetch : String → Option String) :
    List String → List String
  | [] => []
  | link :: rest =>
    match fetch link with
    | none => filter_toml_in_git fetch rest
    | some web_text =>
      if containsMarker ("pyproject.toml") web_text then
        filter_toml_in_git fetch rest
      else
        link :: filter_toml_in_git fetch rest

/-- The spec's generic SignalProbe stage, of which
`check_setup_py_in_git` and `filter_toml_in_git` are the two instances:
keep a link when its fetch succeeds and the marker's occurrence-truth
equals the keep-policy. -/
def probe (fetch : String → Option String) (marker : String)
    (keepWhenPresent : Bool) : List String → List String
  | [] => []
  | link :: rest =>
    match fetch link with
    | none => probe fetch marker keepWhenPresent rest
    | some web_text =>
      if containsMarker marker web_text = keepWhenPresent then
        link :: probe fetch marker keepWhenPresent rest
      else
        probe fetch marker keepWhenPresent rest

/-- Whitespace tokenisation with an accumulator for the current (reversed)
partial token: this is Python's `str.split()` — split on runs of
whitespace, no empty tokens. -/
def wtokensAux (cur : List Char) : List Char → List (List Char)
  | [] => if cur.isEmpty then [] else [cur.reverse]
  | c :: cs =>
    if c.isWhitespace then
      if cur.isEmpty then wtokensAux [] cs
      else cur.reverse :: wtokensAux [] cs
    else wtokensAux (c :: cur) cs

/-- Embeds Python's `in_str.split()`: the whitespace-delimited tokens of a
string. -/
def pySplit (s : String) : List String :=
  (wtokensAux [] s.data).map String.mk

/-- Embeds `filterout_logged`; the log file's content is passed as the
string `in_str` (the Python function reads the whole file into `in_str`
first).  A candidate is kept iff it is not equal to one of the
whitespace-delimited tokens of the log content. -/
def filterout_logged (in_str : String) : List String → List String
  | [] => []
  | candidate :: rest =>
    if candidate ∈ pySplit in_str then filterout_logged in_str rest
    else candidate :: filterout_logged in_str rest

/-- Embeds Python's `sep.join(xs)`. -/
def pyJoin (sep : String) : List String → String
  | [] => ""
  | [x] => x
  | x :: xs => x ++ sep ++ pyJoin sep xs

/-- The block `main` appends to the log file:
`'\n\n\n\nResults ' + str(utc_now) + ' :\n' + '\n'.join(list) + '\n'`. -/
def output_lines (utc_now : String) (gits_checked_list : List String) : String :=
  ("\n\n\n\nResults ") ++ utc_now ++ (" :\n") ++
    pyJoin ("\n") gits_checked_list ++ ("\n")

/-- The constant `NUMBER_OF_ENTRIES` of `main`. -/
def NUMBER_OF_ENTRIES : Nat := 20

/-- The listing URL computed by `main`. -/
def pydigger_link : String :=
  ("https://pydigger.com/search/has-vcs-no-author?q=&page=1&limit=") ++
    toString NUMBER_OF_ENTRIES

/-- The first-scan loop of `main`: it appends each candidate's
`get_link_from_json` result to `git_link_list` when the result is
non-empty, exactly as the source's
`if new_link_to_github: git_link_list += new_link_to_github`. -/
def accumulate_git_links (fetch : String → Option String)
    (pdig_link_list : List String) : List String :=
  pdig_link_list.foldl
    (fun acc link =>
      let new_link_to_github := get_link_from_json fetch link
      if new_link_to_github = [] then acc else acc ++ new_link_to_github) []

/-- The filter stages of `main`, up to and including `filterout_logged`.
When the initial listing fetch fails, `get_link_from_pdig` yields `None`
and `main` crashes on `enumerate(None)`; that run is modelled as `none`. -/
def main_pipeline (fetch : String → Option String) (log_blob : String) :
    Option (List String) :=
  match get_link_from_pdig fetch pydigger_link with
  | none => none
  | some pdig_link_list =>
    let git_link_list := accumulate_git_links fetch pdig_link_list
    let gits_checked_list := check_setup_py_in_git fetch git_link_list
    let gits_checked_list2 := filter_toml_in_git fetch gits_checked_list
    some (filterout_logged log_blob gits_checked_list2)

/-- One full run of `main` over the modelled environment: the final
candidate list together with the new log-file content (the old content
with `output_lines` appended, as the `open(..., 'a')` write does). -/
def run_main (fetch : String → Option String) (utc_now : String)
    (log_blob : String) : Option (List String × String) :=
  match main_pipeline fetch log_blob with
  | none => none
  | some gits_checked_list =>
    some (gits_checked_list, log_blob ++ output_lines utc_now gits_checked_list)

/-- The keep-predicate of the generic probe stage, as a boolean filter. -/
def probeKeep (fetch : String → Option String) (marker : String)
    (keepWhenPresent : Bool) (link : String) : Bool :=
  match fetch link with
  | none => false
  | some web_text => containsMarker marker web_text == keepWhenPresent

/-- Shape of every link the extractor can produce: the literal prefix
`https://git` followed by a non-empty run of characters of the
restricted class. -/
def linkShape (s : String) : Prop :=
  ∃ r, s.data = gitPre ++ r ∧ r ≠ [] ∧ ∀ ch ∈ r, urlClass ch = true

/-- Split a character sequence at every newline; the result always has one
more entry than there are newlines, so a trailing newline yields a final
empty line. -/
def splitLines : List Char → List (List Char)
  | [] => [[]]
  | c :: cs =>
    if c = '\n' then [] :: splitLines cs
    else
      match splitLines cs with
      | [] => [[c]]
      | l :: ls => (c :: l) :: ls

/-- Example environment for the probe stages: pages A and C contain the
marker `setup.py`, the fetch of page B fails. -/
def probeExampleFetch : String → Option String := fun u =>
  if u = ("A") then some ("x setup.py y")
  else if u = ("C") then some ("z setup.py w")
  else none

/-- Example metadata page with two `project_urls` blocks; the first block
holds distinct Homepage and Repository links, the second another
Homepage link, so extraction yields three links. -/
def pageTwoBlocksThree : String :=
  ("project_urls Homepage&#34;: &#34;https://gitaa ") ++
  ("Repository&#34;: &#34;https://gitbb\x7d ") ++
  ("project_urls Homepage&#34;: &#34;https://gitcc\x7d")

/-- Example metadata page with two `project_urls` blocks carrying the
same Homepage link, so extraction yields that link twice. -/
def pageTwoBlocksDup : String :=
  ("project_urls Homepage&#34;: &#34;https://gitaa\x7d ") ++
  ("project_urls Homepage&#34;: &#34;https://gitaa\x7d")

/-- Example metadata page with a single `project_urls` block followed by
trailing text that contains no further block. -/
def pageOneBlock : String :=
  ("project_urls Homepage&#34;: &#34;https://gitone\x7d tail")

/-- Example metadata page whose first `project_urls` block equals the one
of `pageOneBlock` but which contains a second block. -/
def pageOneBlockPlus : String :=
  ("project_urls Homepage&#34;: &#34;https://gitone\x7d ") ++
  ("project_urls Homepage&#34;: &#34;https://gittwo\x7d")

/-- Example metadata page: a single block with one Homepage match and one
distinct Repository match. -/
def pageSingleBlock : String :=
  ("project_urls Homepage&#34;: &#34;https://gitaa ") ++
  ("Repository&#34;: &#34;https://gitbb\x7d trailing")

/-- The page `pageOneBlockPlus` with extra trailing text that contains no
further `project_urls` block, so both pages have the same block list. -/
def pageOneBlockPlusPad : String :=
  pageOneBlockPlus ++ (" filler text")

/-- Example environment for a full pipeline run: the listing page holds
one project `foo`, its metadata page holds one `project_urls` block with
one Homepage link, and that hosting page contains `setup.py` but not
`pyproject.toml`. -/
def pipelineExampleFetch : String → Option String := fun u =>
  if u = pydigger_link then some ("<td><a href=\"/pypi/foo\" z")
  else if u = ("https://pydigger.com/pypi/foo") then
    some ("project_urls Homepage&#34;: &#34;https://github/proj\x7d")
  else if u = ("https://github/proj") then some ("has a setup.py file")
  else none

/-- Example environment whose listing page holds no project rows at all,
so the pipeline's final candidate list is empty. -/
def emptyListingFetch : String → Option String := fun u =>
  if u = pydigger_link then some ("nothing to see here") else none

/-! Helper lemmas about the probe stages. -/

theorem matchLit_length (lit : List Char) : ∀ s r : List Char,
    matchLit lit s = some r → s.length = lit.length + r.length := by
  induction lit with
  | nil =>
    intro s r h
    simp [matchLit] at h
    simp [h]
  | cons a as ih =>
    intro s r h
    cases s with
    | nil => simp [matchLit] at h
    | cons b bs =>
      by_cases hab : a = b
      · simp [matchLit, hab] at h
        have := ih bs r h
        simp [List.length_cons, this]
        omega
      · simp [matchLit, hab] at h

theorem probe_eq_filter (fetch : String → Option String) (marker : String)
    (keepWhenPresent : Bool) (links : List String) :
    probe fetch marker keepWhenPresent links
      = links.filter (probeKeep fetch marker keepWhenPresent) := by
  induction links with
  | nil => rfl
  | cons link rest ih =>
    rw [probe]
    cases hf : fetch link with
    | none => simp [List.filter, probeKeep, hf, ih]
    | some web_text =>
      by_cases hm : containsMarker marker web_text = keepWhenPresent
      · have hb : (containsMarker marker web_text == keepWhenPresent) = true :=
          beq_iff_eq.mpr hm
        simp [List.filter, probeKeep, hf, hm, hb, ih]
      · have hb : (containsMarker marker web_text == keepWhenPresent) = false :=
          beq_eq_false_iff_ne.mpr hm
        simp [List.filter, probeKeep, hf, hm, hb, ih]

theorem check_setup_eq_probe (fetch : String → Option String)
    (links : List String) :
    check_setup_py_in_git fetch links = probe fetch ("setup.py") true links := by
  induction links with
  | nil => rfl
  | cons link rest ih =>
    rw [check_setup_py_in_git, probe]
    cases hf : fetch link with
    | none => exact ih
    | some web_text =>
      by_cases hm : containsMarker ("setup.py") web_text = true
      · simp [hm, ih]
      · simp [hm, ih]

theorem filter_toml_eq_probe (fetch : String → Option String)
    (links : List String) :
    filter_toml_in_git fetch links
      = probe fetch ("pyproject.toml") false links := by
  induction links with
  | nil => rfl
  | cons link rest ih =>
    rw [filter_toml_in_git, probe]
    cases hf : fetch link with
    | none => exact ih
    | some web_text =>
      by_cases hm : containsMarker ("pyproject.toml") web_text = true
      · simp [hm, ih]
      · simp [hm, ih]

/-! Helper lemmas about the history filter. -/

theorem mem_filterout_logged (in_str : String) (candidate_list : List String)
    (c : String) :
    c ∈ filterout_logged in_str candidate_list
      ↔ c ∈ candidate_list ∧ c ∉ pySplit in_str := by
  induction candidate_list with
  | nil => simp [filterout_logged]
  | cons candidate rest ih =>
    rw [filterout_logged]
    by_cases hm : candidate ∈ pySplit in_str
    · simp only [if_pos hm, ih, List.mem_cons]
      constructor
      · rintro ⟨hc, hns⟩
        exact ⟨Or.inr hc, hns⟩
      · rintro ⟨hc | hc, hns⟩
        · exact absurd (hc ▸ hm) hns
        · exact ⟨hc, hns⟩
    · simp only [if_neg hm, List.mem_cons, ih]
      constructor
      · rintro (rfl | ⟨hc, hns⟩)
        · exact ⟨Or.inl rfl, hm⟩
        · exact ⟨Or.inr hc, hns⟩
      · rintro ⟨hc | hc, hns⟩
        · exact Or.inl hc
        · exact Or.inr ⟨hc, hns⟩

theorem filterout_logged_sublist (in_str : String)
    (candidate_list : List String) :
    (filterout_logged in_str candidate_list).Sublist candidate_list := by
  induction candidate_list with
  | nil => simp [filterout_logged]
  | cons candidate rest ih =>
    rw [filterout_logged]
    by_cases hm : candidate ∈ pySplit in_str
    · exact (if_pos hm) ▸ ih.cons candidate
    · exact (if_neg hm) ▸ ih.cons₂ candidate

theorem filterout_logged_eq_nil (in_str : String) (candidate_list : List String)
    (h : ∀ c ∈ candidate_list, c ∈ pySplit in_str) :
    filterout_logged in_str candidate_list = [] := by
  induction candidate_list with
  | nil => rfl
  | cons candidate rest ih =>
    rw [filterout_logged, if_pos (h candidate (List.mem_cons_self _ _))]
    exact ih (fun c hc => h c (List.mem_cons_of_mem _ hc))

/-! Helper lemmas about strings and whitespace tokenisation. -/

theorem strData_append (a b : String) : (a ++ b).data = a.data ++ b.data := by
  cases a
  cases b
  rfl

theorem strMk_data (s : String) : String.mk s.data = s := by
  cases s
  rfl

theorem strMk_injective : Function.Injective String.mk := by
  intro a b h
  exact congrArg String.data h

theorem mem_pySplit (c : String) (s : String) :
    c ∈ pySplit s ↔ c.data ∈ wtokensAux [] s.data := by
  unfold pySplit
  constructor
  · rintro h
    rcases List.mem_map.mp h with ⟨l, hl, hmk⟩
    have : l = c.data := congrArg String.data hmk
    exact this ▸ hl
  · intro h
    exact List.mem_map.mpr ⟨c.data, h, strMk_data c⟩

theorem wtokensAux_split (w : Char) (hw : w.isWhitespace = true) :
    ∀ (xs cur ys : List Char),
      wtokensAux cur (xs ++ w :: ys) = wtokensAux cur xs ++ wtokensAux [] ys := by
  intro xs
  induction xs with
  | nil =>
    intro cur ys
    by_cases hc : cur.isEmpty
    · simp [wtokensAux, hw, hc]
    · simp [wtokensAux, hw, hc]
  | cons x xs ih =>
    intro cur ys
    by_cases hx : x.isWhitespace
    · by_cases hc : cur.isEmpty
      · simp [wtokensAux, hx, hc, ih]
      · simp [wtokensAux, hx, hc, ih]
    · simp [wtokensAux, hx, ih]

theorem wtokensAux_nonws : ∀ (t : List Char),
    (∀ ch ∈ t, ch.isWhitespace = false) → ∀ cur : List Char,
      wtokensAux cur t
        = if cur.reverse ++ t = [] then [] else [cur.reverse ++ t] := by
  intro t
  induction t with
  | nil =>
    intro _ cur
    by_cases hc : cur = []
    · simp [wtokensAux, hc]
    · have : ¬ cur.isEmpty = true := by simp [List.isEmpty_iff, hc]
      simp [wtokensAux, List.isEmpty_iff, hc]
  | cons c t ih =>
    intro h cur
    have hc : c.isWhitespace = false := h c (List.mem_cons_self _ _)
    have ht : ∀ ch ∈ t, ch.isWhitespace = false :=
      fun ch hch => h ch (List.mem_cons_of_mem _ hch)
    rw [wtokensAux]
    have hcp : ¬ (c.isWhitespace = true) := by simp [hc]
    rw [if_neg hcp, ih ht (c :: cur)]
    have h1 : (c :: cur).reverse ++ t = cur.reverse ++ c :: t := by
      simp
    rw [h1]

theorem wtokensAux_single (t : List Char) (hne : t ≠ [])
    (h : ∀ ch ∈ t, ch.isWhitespace = false) :
    wtokensAux [] t = [t] := by
  rw [wtokensAux_nonws t h []]
  simp [hne]

theorem wtok_nl (cs : List Char) :
    wtokensAux [] ('\n' :: cs) = wtokensAux [] cs := by
  simp [wtokensAux]

/-- Tokens of the joined candidate body followed by the final newline:
exactly the candidates, when each is non-empty and whitespace-free. -/
theorem wtokensAux_pyJoin (L : List String)
    (hL : ∀ c ∈ L, c.data ≠ [] ∧ ∀ ch ∈ c.data, ch.isWhitespace = false) :
    wtokensAux [] ((pyJoin ("\n") L).data ++ ['\n']) = L.map String.data := by
  induction L with
  | nil => simp [pyJoin, wtok_nl, wtokensAux]
  | cons x L ih =>
    cases L with
    | nil =>
      have hx := hL x (List.mem_cons_self _ _)
      rw [pyJoin]
      rw [wtokensAux_split '\n' rfl x.data [] []]
      rw [wtokensAux_single x.data hx.1 hx.2]
      simp [wtokensAux]
    | cons y L2 =>
      have hx := hL x (List.mem_cons_self _ _)
      have hrest : ∀ c ∈ y :: L2, c.data ≠ [] ∧
          ∀ ch ∈ c.data, ch.isWhitespace = false :=
        fun c hc => hL c (List.mem_cons_of_mem _ hc)
      have hpj : pyJoin ("\n") (x :: y :: L2)
          = x ++ ("\n") ++ pyJoin ("\n") (y :: L2) := rfl
      rw [hpj]
      have hshape : (x ++ ("\n") ++ pyJoin ("\n") (y :: L2)).data ++ ['\n']
          = x.data ++ '\n' :: ((pyJoin ("\n") (y :: L2)).data ++ ['\n']) := by
        rw [strData_append, strData_append]
        simp
      rw [hshape, wtokensAux_split '\n' rfl x.data [] _,
        wtokensAux_single x.data hx.1 hx.2, ih hrest]
      simp

/-! Helper lemmas about the shape of extracted links. -/

theorem scanAux_fuel (lit pre : List Char) (cls : Char → Bool) :
    ∀ (f1 : Nat) (t : List Char) (f2 : Nat), t.length ≤ f1 → t.length ≤ f2 →
      scanAux lit pre cls f1 t = scanAux lit pre cls f2 t := by
  intro f1
  induction f1 with
  | zero =>
    intro t f2 h1 h2
    rw [Nat.le_zero, List.length_eq_zero] at h1
    subst h1
    cases f2 <;> rfl
  | succ f1 ih =>
    intro t f2 h1 h2
    cases t with
    | nil => cases f2 <;> rfl
    | cons c cs =>
      cases f2 with
      | zero => simp at h2
      | succ f2 =>
        simp only [scanAux]
        cases hml : matchLit lit (c :: cs) with
        | none =>
          simp only []
          exact ih cs f2 (by simp at h1; omega) (by simp at h2; omega)
        | some rest =>
          simp only []
          have hrl := matchLit_length lit _ _ hml
          simp only [List.length_cons] at hrl h1 h2
          by_cases hrun : rest.takeWhile cls = []
          · rw [if_pos hrun, if_pos hrun]
            exact ih cs f2 (by omega) (by omega)
          · rw [if_neg hrun, if_neg hrun]
            have hsp := congrArg List.length
              (List.takeWhile_append_dropWhile (p := cls) (l := rest))
            rw [List.length_append] at hsp
            have hpos : 0 < (rest.takeWhile cls).length :=
              List.length_pos.mpr hrun
            rw [ih (rest.dropWhile cls) f2 (by omega) (by omega)]

theorem findBlocksAux_fuel :
    ∀ (f1 : Nat) (t : List Char) (f2 : Nat), t.length ≤ f1 → t.length ≤ f2 →
      findBlocksAux f1 t = findBlocksAux f2 t := by
  intro f1
  induction f1 with
  | zero =>
    intro t f2 h1 h2
    rw [Nat.le_zero, List.length_eq_zero] at h1
    subst h1
    cases f2 <;> rfl
  | succ f1 ih =>
    intro t f2 h1 h2
    cases t with
    | nil => cases f2 <;> rfl
    | cons c cs =>
      cases f2 with
      | zero => simp at h2
      | succ f2 =>
        simp only [findBlocksAux]
        cases hml : matchLit pUrls (c :: cs) with
        | none =>
          simp only []
          exact ih cs f2 (by simp at h1; omega) (by simp at h2; omega)
        | some rest =>
          simp only []
          have hrl := matchLit_length pUrls _ _ hml
          have hp : pUrls.length = 12 := rfl
          simp only [List.length_cons] at hrl h1 h2
          have hdw := (List.dropWhile_sublist (l := rest)
            (fun ch => ch ≠ rbrace)).length_le
          rw [ih (rest.dropWhile (fun ch => ch ≠ rbrace)) f2
            (by omega) (by omega)]

theorem scanMatches_cons_some (lit pre : List Char) (cls : Char → Bool)
    (c : Char) (cs rest : List Char) (h : matchLit lit (c :: cs) = some rest) :
    scanMatches lit pre cls (c :: cs)
      = if rest.takeWhile cls = [] then
          scanMatches lit pre cls cs
        else
          (pre ++ rest.takeWhile cls)
            :: scanMatches lit pre cls (rest.dropWhile cls) := by
  have hrl := matchLit_length lit _ _ h
  simp only [List.length_cons] at hrl
  have hstep : scanMatches lit pre cls (c :: cs)
      = if rest.takeWhile cls = [] then
          scanAux lit pre cls cs.length cs
        else
          (pre ++ rest.takeWhile cls)
            :: scanAux lit pre cls cs.length (rest.dropWhile cls) := by
    unfold scanMatches
    rw [List.length_cons, scanAux]
    simp only [h]
  rw [hstep]
  by_cases hrun : rest.takeWhile cls = []
  · rw [if_pos hrun, if_pos hrun]
    exact rfl
  · rw [if_neg hrun, if_neg hrun]
    have hsp := congrArg List.length
      (List.takeWhile_append_dropWhile (p := cls) (l := rest))
    rw [List.length_append] at hsp
    have hpos : 0 < (rest.takeWhile cls).length := List.length_pos.mpr hrun
    rw [scanAux_fuel lit pre cls cs.length (rest.dropWhile cls)
      (rest.dropWhile cls).length (by omega) (Nat.le_refl _)]
    exact rfl

theorem scanMatches_cons_none (lit pre : List Char) (cls : Char → Bool)
    (c : Char) (cs : List Char) (h : matchLit lit (c :: cs) = none) :
    scanMatches lit pre cls (c :: cs) = scanMatches lit pre cls cs := by
  unfold scanMatches
  rw [List.length_cons, scanAux]
  simp only [h]

theorem findBlocks_cons_some (c : Char) (cs rest : List Char)
    (h : matchLit pUrls (c :: cs) = some rest) :
    findBlocks (c :: cs)
      = (pUrls ++ rest.takeWhile (fun ch => ch ≠ rbrace))
          :: findBlocks (rest.dropWhile (fun ch => ch ≠ rbrace)) := by
  have hrl := matchLit_length pUrls _ _ h
  have hp : pUrls.length = 12 := rfl
  simp only [List.length_cons] at hrl
  have hdw := (List.dropWhile_sublist (l := rest)
    (fun ch => ch ≠ rbrace)).length_le
  have hstep : findBlocks (c :: cs)
      = (pUrls ++ rest.takeWhile (fun ch => ch ≠ rbrace))
          :: findBlocksAux cs.length (rest.dropWhile (fun ch => ch ≠ rbrace)) := by
    unfold findBlocks
    rw [List.length_cons, findBlocksAux]
    simp only [h]
  rw [hstep]
  rw [findBlocksAux_fuel cs.length (rest.dropWhile (fun ch => ch ≠ rbrace))
    (rest.dropWhile (fun ch => ch ≠ rbrace)).length (by omega) (Nat.le_refl _)]
  exact rfl

theorem findBlocks_cons_none (c : Char) (cs : List Char)
    (h : matchLit pUrls (c :: cs) = none) :
    findBlocks (c :: cs) = findBlocks cs := by
  unfold findBlocks
  rw [List.length_cons, findBlocksAux]
  simp only [h]

theorem scanMatches_shape (lit pre : List Char) (cls : Char → Bool) :
    ∀ (t : List Char) (m : List Char), m ∈ scanMatches lit pre cls t →
      ∃ r, m = pre ++ r ∧ r ≠ [] ∧ ∀ ch ∈ r, cls ch = true := by
  have main : ∀ (n : Nat) (t : List Char), t.length ≤ n →
      ∀ m ∈ scanMatches lit pre cls t,
        ∃ r, m = pre ++ r ∧ r ≠ [] ∧ ∀ ch ∈ r, cls ch = true := by
    intro n
    induction n with
    | zero =>
      intro t ht m hm
      rw [Nat.le_zero, List.length_eq_zero] at ht
      subst ht
      simp [scanMatches, scanAux] at hm
    | succ n ih =>
      intro t ht m hm
      cases t with
      | nil => simp [scanMatches, scanAux] at hm
      | cons c cs =>
        cases hml : matchLit lit (c :: cs) with
        | none =>
          rw [scanMatches_cons_none lit pre cls c cs hml] at hm
          exact ih cs (by simpa using ht) m hm
        | some rest =>
          rw [scanMatches_cons_some lit pre cls c cs rest hml] at hm
          have hrl := matchLit_length lit _ _ hml
          by_cases hrun : rest.takeWhile cls = []
          · rw [if_pos hrun] at hm
            exact ih cs (by simpa using ht) m hm
          · rw [if_neg hrun] at hm
            rcases List.mem_cons.mp hm with hm | hm
            · refine ⟨rest.takeWhile cls, hm, hrun, ?_⟩
              intro ch hch
              exact List.mem_takeWhile_imp hch
            · have hsp := congrArg List.length
                (List.takeWhile_append_dropWhile (p := cls) (l := rest))
              rw [List.length_append] at hsp
              have hpos : 0 < (rest.takeWhile cls).length :=
                List.length_pos.mpr hrun
              have hlen : (rest.dropWhile cls).length ≤ n := by
                simp at ht hrl
                omega
              exact ih (rest.dropWhile cls) hlen m hm
  intro t
  exact main t.length t (Nat.le_refl _)

theorem mem_blockStep (acc : List (List Char)) (git_chunk : List Char)
    (l : List Char) (h : l ∈ blockStep acc git_chunk) :
    l ∈ acc ∨ l ∈ scanMatches homeLit gitPre urlClass git_chunk
      ∨ l ∈ scanMatches repLit gitPre urlClass git_chunk := by
  rw [blockStep] at h
  split_ifs at h <;>
    (try simp only [List.mem_append] at h) <;> tauto

theorem mem_foldl_blockStep :
    ∀ (blocks : List (List Char)) (init : List (List Char)) (l : List Char),
      l ∈ blocks.foldl blockStep init →
        l ∈ init ∨ ∃ b ∈ blocks,
          l ∈ scanMatches homeLit gitPre urlClass b
            ∨ l ∈ scanMatches repLit gitPre urlClass b := by
  intro blocks
  induction blocks with
  | nil => intro init l h; simp at h; exact Or.inl h
  | cons b bs ih =>
    intro init l h
    rw [List.foldl_cons] at h
    rcases ih (blockStep init b) l h with hin | ⟨b2, hb2, hm⟩
    · rcases mem_blockStep init b l hin with hin | hm
      · exact Or.inl hin
      · exact Or.inr ⟨b, List.mem_cons_self _ _, hm⟩
    · exact Or.inr ⟨b2, List.mem_cons_of_mem _ hb2, hm⟩

theorem extract_links_shape (source : String) (c : String)
    (h : c ∈ extract_links source) : linkShape c := by
  unfold extract_links at h
  rcases List.mem_map.mp h with ⟨l, hl, hmk⟩
  rcases mem_foldl_blockStep (findBlocks source.data) [] l hl with hin | ⟨b, _, hm⟩
  · simp at hin
  · have hsh : ∃ r, l = gitPre ++ r ∧ r ≠ [] ∧ ∀ ch ∈ r, urlClass ch = true := by
      rcases hm with hm | hm
      · exact scanMatches_shape homeLit gitPre urlClass b l hm
      · exact scanMatches_shape repLit gitPre urlClass b l hm
    rcases hsh with ⟨r, hr, hrne, hrcls⟩
    refine ⟨r, ?_, hrne, hrcls⟩
    rw [← hmk]
    exact hr

theorem get_link_from_json_shape (fetch : String → Option String)
    (json_site : String) (c : String) (h : c ∈ get_link_from_json fetch json_site) :
    linkShape c := by
  unfold get_link_from_json at h
  cases hf : fetch json_site with
  | none => rw [hf] at h; simp at h
  | some source => rw [hf] at h; exact extract_links_shape source c h

theorem urlClass_not_ws (c : Char) (h : urlClass c = true) :
    c.isWhitespace = false := by
  cases hb : c.isWhitespace with
  | false => rfl
  | true =>
    exfalso
    unfold Char.isWhitespace at hb
    simp only [Bool.or_eq_true, decide_eq_true_eq] at hb
    have hcases : c = ' ' ∨ c = '\t' ∨ c = '\x0d' ∨ c = '\n' := by tauto
    rcases hcases with rfl | rfl | rfl | rfl <;> revert h <;> decide

theorem linkShape_ne_nil (c : String) (h : linkShape c) : c.data ≠ [] := by
  rcases h with ⟨r, hr, _, _⟩
  rw [hr]
  simp [gitPre]

theorem linkShape_not_ws (c : String) (h : linkShape c) :
    ∀ ch ∈ c.data, ch.isWhitespace = false := by
  rcases h with ⟨r, hr, _, hcls⟩
  intro ch hch
  rw [hr] at hch
  rcases List.mem_append.mp hch with hch | hch
  · revert hch
    have : ∀ ch ∈ gitPre, ch.isWhitespace = false := by decide
    exact this ch
  · exact urlClass_not_ws ch (hcls ch hch)

/-! Line splitting lemmas, used for the format of the appended log block. -/

theorem splitLines_ne_nil (t : List Char) : splitLines t ≠ [] := by
  cases t with
  | nil => simp [splitLines]
  | cons c cs =>
    rw [splitLines]
    by_cases hc : c = '\n'
    · simp [hc]
    · rw [if_neg hc]
      cases splitLines cs <;> simp

theorem splitLines_append_nl (a : List Char) :
    ∀ b : List Char, (∀ ch ∈ a, ch ≠ '\n') →
      splitLines (a ++ '\n' :: b) = a :: splitLines b := by
  induction a with
  | nil => intro b _; simp [splitLines]
  | cons c a ih =>
    intro b h
    have hc : c ≠ '\n' := h c (List.mem_cons_self _ _)
    have ha : ∀ ch ∈ a, ch ≠ '\n' :=
      fun ch hch => h ch (List.mem_cons_of_mem _ hch)
    have : splitLines ((c :: a) ++ '\n' :: b)
        = splitLines (c :: (a ++ '\n' :: b)) := rfl
    rw [this, splitLines, if_neg hc, ih b ha]

theorem splitLines_pyJoin (L : List String) (hne : L ≠ [])
    (h : ∀ c ∈ L, ∀ ch ∈ c.data, ch ≠ '\n') :
    splitLines ((pyJoin ("\n") L).data ++ ['\n'])
      = L.map String.data ++ [[]] := by
  induction L with
  | nil => exact absurd rfl hne
  | cons x L ih =>
    have hx : ∀ ch ∈ x.data, ch ≠ '\n' := h x (List.mem_cons_self _ _)
    cases L with
    | nil =>
      rw [pyJoin, splitLines_append_nl x.data [] hx]
      simp [splitLines]
    | cons y L2 =>
      have hpj : pyJoin ("\n") (x :: y :: L2)
          = x ++ ("\n") ++ pyJoin ("\n") (y :: L2) := rfl
      have hrest : ∀ c ∈ y :: L2, ∀ ch ∈ c.data, ch ≠ '\n' :=
        fun c hc => h c (List.mem_cons_of_mem _ hc)
      have hshape : (x ++ ("\n") ++ pyJoin ("\n") (y :: L2)).data ++ ['\n']
          = x.data ++ '\n' :: ((pyJoin ("\n") (y :: L2)).data ++ ['\n']) := by
        rw [strData_append, strData_append]
        simp
      rw [hpj, hshape, splitLines_append_nl x.data _ hx,
        ih (by simp) hrest]
      simp

/-! Decomposition of the token list of the appended log file. -/

theorem wtokens_append_output (log_blob utc_now : String) (L : List String)
    (hL : ∀ c ∈ L, c.data ≠ [] ∧ ∀ ch ∈ c.data, ch.isWhitespace = false) :
    wtokensAux [] ((log_blob ++ output_lines utc_now L).data)
      = wtokensAux [] log_blob.data
        ++ (wtokensAux [] (("\n\n\nResults ").data ++ utc_now.data ++ [' ', ':'])
            ++ L.map String.data) := by
  have e1 : ("\n\n\n\nResults ").data = '\n' :: ("\n\n\nResults ").data := rfl
  have e2 : (" :\n").data = [' ', ':', '\n'] := rfl
  have e3 : ("\n").data = ['\n'] := rfl
  have hA : (log_blob ++ output_lines utc_now L).data
      = log_blob.data
          ++ '\n' :: ((("\n\n\nResults ").data ++ utc_now.data ++ [' ', ':'])
            ++ '\n' :: ((pyJoin ("\n") L).data ++ ['\n'])) := by
    unfold output_lines
    rw [strData_append, strData_append, strData_append, strData_append,
      strData_append, e1, e2, e3]
    simp
  rw [hA, wtokensAux_split '\n' rfl log_blob.data [] _,
    wtokensAux_split '\n' rfl _ [] _, wtokensAux_pyJoin L hL]

theorem mem_pySplit_appended (log_blob utc_now : String) (L : List String)
    (hL : ∀ c ∈ L, c.data ≠ [] ∧ ∀ ch ∈ c.data, ch.isWhitespace = false)
    (c : String) (h : c ∈ pySplit log_blob ∨ c ∈ L) :
    c ∈ pySplit (log_blob ++ output_lines utc_now L) := by
  rw [mem_pySplit, wtokens_append_output log_blob utc_now L hL]
  rcases h with h | h
  · exact List.mem_append.mpr (Or.inl ((mem_pySplit c log_blob).mp h))
  · exact List.mem_append.mpr (Or.inr (List.mem_append.mpr
      (Or.inr (List.mem_map.mpr ⟨c, h, rfl⟩))))

/-! Membership in the accumulated link list of the first scan. -/

theorem mem_accumulate_git_links (fetch : String → Option String) :
    ∀ (pdig_link_list : List String) (c : String),
      c ∈ accumulate_git_links fetch pdig_link_list →
        ∃ link ∈ pdig_link_list, c ∈ get_link_from_json fetch link := by
  have main : ∀ (l : List String) (init : List String) (c : String),
      c ∈ l.foldl (fun acc link =>
        let new_link_to_github := get_link_from_json fetch link
        if new_link_to_github = [] then acc else acc ++ new_link_to_github) init →
        c ∈ init ∨ ∃ link ∈ l, c ∈ get_link_from_json fetch link := by
    intro l
    induction l with
    | nil => intro init c h; simp at h; exact Or.inl h
    | cons x xs ih =>
      intro init c h
      rw [List.foldl_cons] at h
      rcases ih _ c h with hin | ⟨link, hl, hm⟩
      · dsimp only at hin
        by_cases hx : get_link_from_json fetch x = []
        · rw [if_pos hx] at hin
          exact Or.inl hin
        · rw [if_neg hx] at hin
          rcases List.mem_append.mp hin with hin | hin
          · exact Or.inl hin
          · exact Or.inr ⟨x, List.mem_cons_self _ _, hin⟩
      · exact Or.inr ⟨link, List.mem_cons_of_mem _ hl, hm⟩
  intro pdig c h
  rcases main pdig [] c h with hin | h2
  · simp at hin
  · exact h2

/-! Unfolding lemmas for the orchestrator. -/

theorem main_pipeline_eq_none (fetch : String → Option String)
    (log_blob : String) (hpd : get_link_from_pdig fetch pydigger_link = none) :
    main_pipeline fetch log_blob = none := by
  unfold main_pipeline
  rw [hpd]

theorem main_pipeline_eq_some (fetch : String → Option String)
    (log_blob : String) (pdig_link_list : List String)
    (hpd : get_link_from_pdig fetch pydigger_link = some pdig_link_list) :
    main_pipeline fetch log_blob
      = some (filterout_logged log_blob
          (filter_toml_in_git fetch
            (check_setup_py_in_git fetch
              (accumulate_git_links fetch pdig_link_list)))) := by
  unfold main_pipeline
  rw [hpd]

theorem run_main_eq_some (fetch : String → Option String)
    (utc_now log_blob : String) (L : List String)
    (h : main_pipeline fetch log_blob = some L) :
    run_main fetch utc_now log_blob
      = some (L, log_blob ++ output_lines utc_now L) := by
  unfold run_main
  rw [h]

theorem strLength_data (s : String) : s.length = s.data.length := by
  cases s
  rfl

theorem strLength_append (a b : String) :
    (a ++ b).length = a.length + b.length := by
  rw [strLength_data, strLength_data, strLength_data, strData_append,
    List.length_append]

/-- Every surviving element of the second probe stage is an extracted
hosting link and hence has the restricted link shape. -/
theorem mem_stage2_shape (fetch : String → Option String)
    (pdig_link_list : List String) (c : String)
    (h : c ∈ filter_toml_in_git fetch
        (check_setup_py_in_git fetch
          (accumulate_git_links fetch pdig_link_list))) :
    linkShape c := by
  rw [filter_toml_eq_probe, probe_eq_filter] at h
  have h1 := (List.mem_filter.mp h).1
  rw [check_setup_eq_probe, probe_eq_filter] at h1
  have h2 := (List.mem_filter.mp h1).1
  rcases mem_accumulate_git_links fetch pdig_link_list c h2 with ⟨link, _, hm⟩
  exact get_link_from_json_shape fetch link c hm

/-- Character-level consequence of the hosting-URL class: each class
character is a letter, hyphen, underscore, slash, or dot, and never a
digit. -/
theorem urlClass_char (c : Char) (h : urlClass c = true) :
    (c.isAlpha || c = '-' || c = '_' || c = '/' || c = '.') = true
      ∧ c.isDigit = false := by
  unfold urlClass at h
  simp only [Bool.or_eq_true, Bool.and_eq_true, decide_eq_true_eq] at h
  have hd : c = '-' ∨ c = '_' ∨ ('a' ≤ c ∧ c ≤ 'z') ∨ ('A' ≤ c ∧ c ≤ 'Z')
      ∨ c = '/' ∨ c = '.' ∨ c = 'd' := by tauto
  rcases hd with rfl | rfl | ⟨h1, h2⟩ | ⟨h1, h2⟩ | rfl | rfl | rfl
  · exact ⟨by decide, by decide⟩
  · exact ⟨by decide, by decide⟩
  · rw [Char.le_def] at h1 h2
    have hval1 : (97 : UInt32) ≤ c.val := h1
    have hval2 : c.val ≤ (122 : UInt32) := h2
    constructor
    · have hlow : c.isLower = true := by
        simp only [Char.isLower, Bool.and_eq_true, decide_eq_true_eq]
        exact ⟨hval1, hval2⟩
      simp [Char.isAlpha, hlow]
    · cases hdig : c.isDigit with
      | false => rfl
      | true =>
        exfalso
        simp only [Char.isDigit, Bool.and_eq_true, decide_eq_true_eq] at hdig
        exact absurd (UInt32.le_trans hval1 hdig.2) (by decide)
  · rw [Char.le_def] at h1 h2
    have hval1 : (65 : UInt32) ≤ c.val := h1
    have hval2 : c.val ≤ (90 : UInt32) := h2
    constructor
    · have hup : c.isUpper = true := by
        simp only [Char.isUpper, Bool.and_eq_true, decide_eq_true_eq]
        exact ⟨hval1, hval2⟩
      simp [Char.isAlpha, hup]
    · cases hdig : c.isDigit with
      | false => rfl
      | true =>
        exfalso
        simp only [Char.isDigit, Bool.and_eq_true, decide_eq_true_eq] at hdig
        exact absurd (UInt32.le_trans hval1 hdig.2) (by decide)
  · exact ⟨by decide, by decide⟩
  · exact ⟨by decide, by decide⟩
  · exact ⟨by decide, by decide⟩

/-! Claim theorems. -/

/-- C2: the SignalProbe stage is an order-preserving filter: it returns
exactly the input links, in input order, whose fetch succeeds and whose
marker-occurrence truth equals the keep-policy; links whose fetch fails
are dropped without aborting.  `check_setup_py_in_git` and
`filter_toml_in_git` are its two instances, and on the spec's example
(input [A, B, C], B's fetch failing, marker present only on A's and C's
pages) the keep-when-present probe returns [A, C] in that order. -/
theorem signal_probe_stable_filter :
    (∀ (fetch : String → Option String) (marker : String)
        (keepWhenPresent : Bool) (links : List String),
      probe fetch marker keepWhenPresent links
        = links.filter (probeKeep fetch marker keepWhenPresent))
    ∧ (∀ (fetch : String → Option String) (links : List String),
        check_setup_py_in_git fetch links
          = probe fetch ("setup.py") true links)
    ∧ (∀ (fetch : String → Option String) (links : List String),
        filter_toml_in_git fetch links
          = probe fetch ("pyproject.toml") false links)
    ∧ probe probeExampleFetch ("setup.py") true [("A"), ("B"), ("C")]
        = [("A"), ("C")] := by
  refine ⟨probe_eq_filter, check_setup_eq_probe, filter_toml_eq_probe, ?_⟩
  decide

/-- C3: the history filter keeps exactly the candidates, in input order,
that are not equal to one of the whitespace-delimited tokens of the log
blob.  Membership is token-exact: a candidate equal to a token of the
blob is removed, and a candidate occurring in the blob only as a proper
substring of a token is retained. -/
theorem history_filter_token_exact :
    (∀ (in_str : String) (candidate_list : List String) (c : String),
        c ∈ filterout_logged in_str candidate_list
          ↔ c ∈ candidate_list ∧ c ∉ pySplit in_str)
    ∧ (∀ (in_str : String) (candidate_list : List String),
        (filterout_logged in_str candidate_list).Sublist candidate_list)
    ∧ filterout_logged ("logged\nhttps://github.com/a/b\nmore")
        [("https://github.com/a/b"), ("https://github.com/c/d")]
        = [("https://github.com/c/d")]
    ∧ filterout_logged ("xxhttps://github.com/a/byy")
        [("https://github.com/a/b")]
        = [("https://github.com/a/b")] := by
  refine ⟨mem_filterout_logged, filterout_logged_sublist, ?_, ?_⟩
  · decide
  · decide

/-- C8: evaluation of the listing stage at a failing fetch: the code
returns `None` (a bare `return`), not an empty list, so the run does not
proceed with zero candidates — `main` crashes iterating over `None`. -/
theorem get_link_from_pdig_none_on_failed_fetch :
    get_link_from_pdig (fun _ => none) pydigger_link = none
      ∧ get_link_from_pdig (fun _ => none) pydigger_link ≠ some ([] : List String)
      ∧ main_pipeline (fun _ => none) ("") = none := by
  refine ⟨rfl, by decide, ?_⟩
  exact main_pipeline_eq_none (fun _ => none) ("") rfl

set_option maxRecDepth 100000 in
/-- Counterexample to C5: two metadata pages that agree on their first
`project_urls` block but differ in a later block give different
extraction results — the extractor does not derive its result from the
first block alone. -/
theorem link_extractor_first_block_cex :
    (findBlocks pageOneBlock.data).head? = (findBlocks pageOneBlockPlus.data).head?
      ∧ extract_links pageOneBlock ≠ extract_links pageOneBlockPlus := by
  constructor
  · decide
  · decide

set_option maxRecDepth 100000 in
/-- Counterexample to C6: a metadata page with two `project_urls` blocks
makes the extractor return three links for a single candidate. -/
theorem link_extractor_three_links_cex :
    (get_link_from_json (fun _ => some pageTwoBlocksThree) ("site")).length = 3 := by
  decide

set_option maxRecDepth 100000 in
/-- Counterexample to C7: a metadata page with two `project_urls` blocks
carrying the same Homepage link makes the extractor return the same
string twice. -/
theorem link_extractor_duplicate_cex :
    get_link_from_json (fun _ => some pageTwoBlocksDup) ("site")
        = [("https://gitaa"), ("https://gitaa")]
      ∧ ¬ (get_link_from_json (fun _ => some pageTwoBlocksDup) ("site")).Nodup := by
  constructor
  · decide
  · decide

/-- One loop iteration of the extractor only appends to the accumulator. -/
theorem blockStep_append (acc : List (List Char)) (b : List Char) :
    blockStep acc b = acc ++ blockStep [] b := by
  rw [blockStep, blockStep]
  split_ifs <;> simp

theorem foldl_blockStep_eq_flatten :
    ∀ (blocks : List (List Char)) (init : List (List Char)),
      blocks.foldl blockStep init
        = init ++ (blocks.map (blockStep [])).flatten := by
  intro blocks
  induction blocks with
  | nil => intro init; simp
  | cons b bs ih =>
    intro init
    rw [List.foldl_cons, ih (blockStep init b), blockStep_append]
    simp

/-- C5 (amended): the extractor derives its result from every occurrence
of a `project_urls` block, not only the first: the extraction result is
the concatenation, in order, of each block's contribution, and hence any
two page texts with the same full block list extract the same links. -/
theorem link_extractor_block_concat :
    (∀ source_jason : String,
      extract_links source_jason
        = (((findBlocks source_jason.data).map (blockStep [])).flatten).map
            String.mk)
    ∧ (∀ s1 s2 : String, findBlocks s1.data = findBlocks s2.data →
        extract_links s1 = extract_links s2) := by
  have h1 : ∀ source_jason : String,
      extract_links source_jason
        = (((findBlocks source_jason.data).map (blockStep [])).flatten).map
            String.mk := by
    intro s
    unfold extract_links
    rw [foldl_blockStep_eq_flatten]
    simp
  refine ⟨h1, fun s1 s2 h => ?_⟩
  rw [h1, h1, h]

set_option maxRecDepth 100000 in
/-- Witness for the amended C5 at two concrete pages with equal block
lists but different trailing text. -/
theorem link_extractor_block_concat_witness :
    extract_links pageOneBlockPlus = extract_links pageOneBlockPlusPad :=
  link_extractor_block_concat.2 pageOneBlockPlus pageOneBlockPlusPad (by decide)

/-- C6 (amended): when the fetched metadata page has at most one
`project_urls` block and the Homepage and Repository patterns each match
at most once within it, the extractor returns at most two links; pages
with several blocks or repeated keys can exceed that bound. -/
theorem link_extractor_at_most_two_of_single_block
    (fetch : String → Option String) (json_site source_jason : String)
    (hf : fetch json_site = some source_jason)
    (hb : (findBlocks source_jason.data).length ≤ 1)
    (hk : ∀ b ∈ findBlocks source_jason.data,
        (scanMatches homeLit gitPre urlClass b).length ≤ 1
          ∧ (scanMatches repLit gitPre urlClass b).length ≤ 1) :
    (get_link_from_json fetch json_site).length ≤ 2 := by
  unfold get_link_from_json
  rw [hf]
  show (extract_links source_jason).length ≤ 2
  unfold extract_links
  cases hbl : findBlocks source_jason.data with
  | nil => simp
  | cons b bs =>
    rw [hbl] at hb hk
    cases bs with
    | cons b2 bs2 => simp at hb
    | nil =>
      have hkb := hk b (List.mem_cons_self _ _)
      rw [List.foldl_cons, List.foldl_nil, List.length_map, blockStep]
      rcases hkb with ⟨hk1, hk2⟩
      split_ifs <;> simp [List.length_append] <;> omega

set_option maxRecDepth 100000 in
/-- Witness for the amended C6 at a concrete single-block page with one
Homepage and one Repository match. -/
theorem link_extractor_at_most_two_witness :
    (get_link_from_json (fun _ => some pageSingleBlock) ("site")).length ≤ 2 :=
  link_extractor_at_most_two_of_single_block
    (fun _ => some pageSingleBlock) ("site") pageSingleBlock rfl
    (by decide) (by decide)

/-- C7 (amended): when the fetched metadata page has at most one
`project_urls` block with at most one Homepage match and at most one
Repository match, the extractor never returns two identical strings —
the Repository value is appended only when its singleton match list
differs from the Homepage one, which for single matches is exactly
string inequality.  With several blocks or repeated keys, duplicates can
occur. -/
theorem link_extractor_nodup_of_single_block
    (fetch : String → Option String) (json_site source_jason : String)
    (hf : fetch json_site = some source_jason)
    (hb : (findBlocks source_jason.data).length ≤ 1)
    (hk : ∀ b ∈ findBlocks source_jason.data,
        (scanMatches homeLit gitPre urlClass b).length ≤ 1
          ∧ (scanMatches repLit gitPre urlClass b).length ≤ 1) :
    (get_link_from_json fetch json_site).Nodup := by
  unfold get_link_from_json
  rw [hf]
  show (extract_links source_jason).Nodup
  unfold extract_links
  cases hbl : findBlocks source_jason.data with
  | nil => simp
  | cons b bs =>
    rw [hbl] at hb hk
    cases bs with
    | cons b2 bs2 => simp at hb
    | nil =>
      rcases hk b (List.mem_cons_self _ _) with ⟨hk1, hk2⟩
      rw [List.foldl_cons, List.foldl_nil]
      apply List.Nodup.map strMk_injective
      rw [blockStep]
      rcases hh : scanMatches homeLit gitPre urlClass b with _ | ⟨h1, hs⟩
      · rcases hr : scanMatches repLit gitPre urlClass b with _ | ⟨r1, rs⟩
        · simp
        · have hrs : rs = [] := by
            rw [hr, List.length_cons] at hk2
            exact List.length_eq_zero.mp (by omega)
          subst hrs
          split_ifs <;> simp
      · have hhs : hs = [] := by
          rw [hh, List.length_cons] at hk1
          exact List.length_eq_zero.mp (by omega)
        subst hhs
        rcases hr : scanMatches repLit gitPre urlClass b with _ | ⟨r1, rs⟩
        · split_ifs <;> simp
        · have hrs : rs = [] := by
            rw [hr, List.length_cons] at hk2
            exact List.length_eq_zero.mp (by omega)
          subst hrs
          by_cases hne : r1 = h1
          · subst hne
            split_ifs <;> simp_all
          · have hne2 : h1 ≠ r1 := fun he => hne he.symm
            split_ifs <;> simp_all

set_option maxRecDepth 100000 in
/-- Witness for the amended C7 at a concrete single-block page. -/
theorem link_extractor_nodup_witness :
    (get_link_from_json (fun _ => some pageSingleBlock) ("site")).Nodup :=
  link_extractor_nodup_of_single_block
    (fun _ => some pageSingleBlock) ("site") pageSingleBlock rfl
    (by decide) (by decide)

/-- C9: every string returned by the link extractor begins with the
literal `https://git`, and every character after that prefix is a
letter, hyphen, underscore, slash, or dot — never a digit, because the
character class of the pattern contains the letter `d` literally, not a
digit wildcard. -/
theorem link_extractor_shape_restricted
    (fetch : String → Option String) (json_site link : String)
    (h : link ∈ get_link_from_json fetch json_site) :
    (∃ t, link.data = gitPre ++ t)
    ∧ ∀ ch ∈ link.data.drop gitPre.length,
        (ch.isAlpha || ch = '-' || ch = '_' || ch = '/' || ch = '.') = true
          ∧ ch.isDigit = false := by
  rcases get_link_from_json_shape fetch json_site link h with ⟨r, hr, _, hcls⟩
  constructor
  · exact ⟨r, hr⟩
  · intro ch hch
    rw [hr, List.drop_left] at hch
    exact urlClass_char ch (hcls ch hch)

set_option maxRecDepth 100000 in
/-- Witness for C9 at a concrete extracted link. -/
theorem link_extractor_shape_restricted_witness :
    (("https://gitaa" : String)
        ∈ get_link_from_json (fun _ => some pageSingleBlock) ("site"))
    ∧ ((∃ t, ("https://gitaa" : String).data = gitPre ++ t)
      ∧ ∀ ch ∈ ("https://gitaa" : String).data.drop gitPre.length,
          (ch.isAlpha || ch = '-' || ch = '_' || ch = '/' || ch = '.') = true
            ∧ ch.isDigit = false) :=
  ⟨by decide, link_extractor_shape_restricted
    (fun _ => some pageSingleBlock) ("site") ("https://gitaa") (by decide)⟩

/-- C10: every run that reaches the append step appends the
separator-and-header block, so the log blob strictly grows — also when
the final candidate list is empty. -/
theorem log_grows_even_when_empty
    (fetch : String → Option String) (utc_now log_blob blob2 : String)
    (L : List String)
    (h : run_main fetch utc_now log_blob = some (L, blob2)) :
    blob2 = log_blob ++ output_lines utc_now L
      ∧ log_blob.length < blob2.length := by
  unfold run_main at h
  cases hmp : main_pipeline fetch log_blob with
  | none =>
    rw [hmp] at h
    simp at h
  | some L2 =>
    rw [hmp] at h
    have h2 : some (L2, log_blob ++ output_lines utc_now L2)
        = some (L, blob2) := h
    injection h2 with h3
    have hL : L2 = L := congrArg Prod.fst h3
    have hb : log_blob ++ output_lines utc_now L2 = blob2 := congrArg Prod.snd h3
    subst hL
    subst hb
    refine ⟨rfl, ?_⟩
    rw [strLength_append]
    have hpos : 0 < (output_lines utc_now L2).length := by
      unfold output_lines
      rw [strLength_append, strLength_append, strLength_append, strLength_append]
      have h12 : (("\n\n\n\nResults ") : String).length = 12 := rfl
      omega
    omega

set_option maxRecDepth 100000 in
/-- Witness for C10 on a run whose final candidate list is empty. -/
theorem log_grows_even_when_empty_witness :
    ("x" : String).length
      < (("x" : String) ++ output_lines ("T") ([] : List String)).length :=
  (log_grows_even_when_empty emptyListingFetch ("T") ("x")
    (("x" : String) ++ output_lines ("T") []) [] (by decide)).2

/-- C4: the history append leaves the prior blob content unchanged as a
prefix, and the appended suffix is a block consisting of a blank-line
separator, a header line containing the literal word `Results` and the
timestamp, then one candidate link per line, and a final newline. -/
theorem history_append_preserves_and_formats
    (log_blob utc_now : String) (gits_checked_list : List String)
    (hts : ∀ ch ∈ utc_now.data, ch ≠ '\n')
    (hcs : ∀ c ∈ gits_checked_list, ∀ ch ∈ c.data, ch ≠ '\n')
    (hne : gits_checked_list ≠ []) :
    (∃ t, (log_blob ++ output_lines utc_now gits_checked_list).data
        = log_blob.data ++ t)
    ∧ splitLines ((output_lines utc_now gits_checked_list).data)
        = [[], [], [], [],
            ("Results ").data ++ utc_now.data ++ (" :").data]
          ++ gits_checked_list.map String.data ++ [[]] := by
  constructor
  · exact ⟨(output_lines utc_now gits_checked_list).data, strData_append _ _⟩
  · have hB : (output_lines utc_now gits_checked_list).data
        = '\n' :: '\n' :: '\n' :: '\n' ::
          ((("Results ").data ++ utc_now.data ++ [' ', ':'])
            ++ '\n' :: ((pyJoin ("\n") gits_checked_list).data ++ ['\n'])) := by
      unfold output_lines
      rw [strData_append, strData_append, strData_append, strData_append]
      have e1 : ("\n\n\n\nResults ").data
          = '\n' :: '\n' :: '\n' :: '\n' :: ("Results ").data := rfl
      have e2 : (" :\n").data = [' ', ':', '\n'] := rfl
      have e3 : ("\n").data = ['\n'] := rfl
      rw [e1, e2, e3]
      simp
    rw [hB]
    have hnl : ∀ cs : List Char,
        splitLines ('\n' :: cs) = [] :: splitLines cs := by
      intro cs
      rw [splitLines, if_pos rfl]
    rw [hnl, hnl, hnl, hnl]
    have hhead : ∀ ch ∈ ("Results ").data ++ utc_now.data ++ [' ', ':'],
        ch ≠ '\n' := by
      intro ch hch
      rcases List.mem_append.mp hch with hch | hch
      · rcases List.mem_append.mp hch with hch | hch
        · have hlit : ∀ c ∈ ("Results ").data, c ≠ '\n' := by decide
          exact hlit ch hch
        · exact hts ch hch
      · have : ch = ' ' ∨ ch = ':' := by simpa using hch
        rcases this with rfl | rfl <;> decide
    rw [splitLines_append_nl _ _ hhead,
      splitLines_pyJoin gits_checked_list hne hcs]
    simp

/-- Witness for C4 at a concrete blob, timestamp, and candidate list. -/
theorem history_append_preserves_and_formats_witness :
    (∃ t, (("L" : String) ++ output_lines ("TS") [("a"), ("b")]).data
        = ("L" : String).data ++ t)
    ∧ splitLines ((output_lines ("TS") [("a" : String), ("b")]).data)
        = [[], [], [], [],
            ("Results ").data ++ ("TS" : String).data ++ (" :").data]
          ++ [("a" : String), ("b")].map String.data ++ [[]] :=
  history_append_preserves_and_formats ("L") ("TS") [("a"), ("b")]
    (by decide) (by decide) (by decide)

/-- C1: running the full pipeline twice over the same fetch environment,
where the first run's final candidate list was appended to the history
blob, yields an empty final candidate list on the second run. -/
theorem pipeline_idempotent_on_unchanged_fetch
    (fetch : String → Option String) (utc_now utc_now2 log_blob blob2 : String)
    (L1 : List String)
    (h : run_main fetch utc_now log_blob = some (L1, blob2)) :
    ∃ blob3, run_main fetch utc_now2 blob2 = some ([], blob3) := by
  unfold run_main at h
  cases hmp : main_pipeline fetch log_blob with
  | none =>
    rw [hmp] at h
    simp at h
  | some L =>
    rw [hmp] at h
    have h2 : some (L, log_blob ++ output_lines utc_now L)
        = some (L1, blob2) := h
    injection h2 with h3
    have hL : L = L1 := congrArg Prod.fst h3
    have hb : log_blob ++ output_lines utc_now L = blob2 := congrArg Prod.snd h3
    rw [hL] at hmp hb
    cases hpd : get_link_from_pdig fetch pydigger_link with
    | none =>
      rw [main_pipeline_eq_none fetch log_blob hpd] at hmp
      exact Option.noConfusion hmp
    | some pdig_link_list =>
      rw [main_pipeline_eq_some fetch log_blob pdig_link_list hpd] at hmp
      injection hmp with hmp2
      set s2 := filter_toml_in_git fetch
        (check_setup_py_in_git fetch
          (accumulate_git_links fetch pdig_link_list)) with hs2
      have hshape : ∀ c ∈ s2, linkShape c :=
        fun c hc => mem_stage2_shape fetch pdig_link_list c hc
      have hL1shape : ∀ c ∈ L1, c.data ≠ []
          ∧ ∀ ch ∈ c.data, ch.isWhitespace = false := by
        intro c hc
        rw [← hmp2] at hc
        have hcs2 : c ∈ s2 := ((mem_filterout_logged log_blob s2 c).mp hc).1
        exact ⟨linkShape_ne_nil c (hshape c hcs2),
          linkShape_not_ws c (hshape c hcs2)⟩
      have hall : ∀ c ∈ s2, c ∈ pySplit blob2 := by
        intro c hc
        rw [← hb]
        by_cases hmem : c ∈ pySplit log_blob
        · exact mem_pySplit_appended log_blob utc_now L1 hL1shape c (Or.inl hmem)
        · have hmem2 : c ∈ L1 := by
            rw [← hmp2]
            exact (mem_filterout_logged log_blob s2 c).mpr ⟨hc, hmem⟩
          exact mem_pySplit_appended log_blob utc_now L1 hL1shape c
            (Or.inr hmem2)
      have hfinal : filterout_logged blob2 s2 = [] :=
        filterout_logged_eq_nil blob2 s2 hall
      refine ⟨blob2 ++ output_lines utc_now2 [], ?_⟩
      have hmp3 : main_pipeline fetch blob2 = some [] := by
        rw [main_pipeline_eq_some fetch blob2 pdig_link_list hpd, ← hs2, hfinal]
      rw [run_main_eq_some fetch utc_now2 blob2 [] hmp3]

set_option maxRecDepth 1000000 in
/-- Witness for C1 at a concrete environment: one candidate survives the
first run, is appended, and the second run reports nothing. -/
theorem pipeline_idempotent_witness :
    ∃ blob3, run_main pipelineExampleFetch ("T2")
        (("" : String) ++ output_lines ("T1") [("https://github/proj")])
        = some ([], blob3) :=
  pipeline_idempotent_on_unchanged_fetch pipelineExampleFetch ("T1") ("T2")
    ("") (("" : String) ++ output_lines ("T1") [("https://github/proj")])
    [("https://github/proj")] (by decide)
